import Mathlib

/-!
A shallow embedding of the `autoplate_rust` streaming extraction pipeline
(`src/main.rs`) and proofs about it.

The embedding mirrors the source:

* `ProgressState` / `progressRead` model `ProgressReader::read`
  (src/main.rs lines 48-68): byte counter, integer-percent threshold
  reporting, no report when the total is zero.
* `ScanState` / `scanStep` model the per-entry XML scanning loop of
  `process_zip_file` (lines 205-268): the flags `in_vehicle`,
  `in_license_plate` and the buffered `current_vehicle.license_plate`,
  with a record inserted into the store on the closing `Vehicle` tag
  when the buffered plate is non-empty.
* `dbInsert` models `HashMap::insert` on the `db` map (key-unique
  association list, overwrite on duplicate key).
* `XmlEntry` / `processEntry` / `processEntries` model the per-entry
  loop of `process_zip_file`: a directory entry is skipped, scan state
  is freshly initialised for each entry, and an entry whose event
  stream ends in a parse error or a mid-entry decode (decompression
  I/O) error produces a warning carrying the byte position and the loop
  moves on to the next entry.
* `sortedPlates` / `displayResults` model `display_results`
  (lines 275-288): collect the keys, sort ascending, print the first 10.
* `runMain` models `main` (lines 70-103): a supplied positional
  argument is a local path that must exist, otherwise the run fails
  with a file-not-found error before any archive processing; the
  remote-download collaborator and the archive opener are parameters.

Timestamps (`SystemTime::now()`) are modelled by a logical clock that
increases at every insertion, so a later insertion always carries a
later (distinct) timestamp.
-/

namespace Autoplate

/-- A stored record: `LicensePlate { plate, timestamp }` from the source. -/
structure LicensePlate where
  plate : String
  timestamp : Nat
deriving DecidableEq, Repr

/-- Scanner state of the per-entry loop in `process_zip_file`:
`in_vehicle`, `current_vehicle.license_plate`, `in_license_plate`. -/
structure ScanState where
  inVehicle : Bool
  licensePlate : String
  inLicensePlate : Bool
deriving DecidableEq, Repr

/-- The scanner state as freshly initialised at the top of each entry's
iteration (`in_vehicle = false`, `Vehicle::default()`,
`in_license_plate = false`). -/
def initScan : ScanState := ⟨false, "", false⟩

/-- One event produced by the XML reader: start tag, (unescaped) text,
end tag, or any other event the source ignores in its `_ => {}` arm. -/
inductive XmlEvent where
  | start (name : String)
  | text (content : String)
  | endTag (name : String)
  | other
deriving DecidableEq, Repr

/-- One step of the scanning state machine, returning the next state and
the plate emitted by this event, if any (the body of the `match` on
`reader.read_event_into` in `process_zip_file`). -/
def scanStep (s : ScanState) (ev : XmlEvent) : ScanState × Option String :=
  match ev with
  | .start n =>
      if n = "Vehicle" then
        ({ s with inVehicle := true, licensePlate := "" }, none)
      else if n = "LicensePlate" then
        ({ s with inLicensePlate := true }, none)
      else (s, none)
  | .text t =>
      if s.inVehicle && s.inLicensePlate then
        ({ s with licensePlate := t }, none)
      else (s, none)
  | .endTag n =>
      if n = "LicensePlate" then
        ({ s with inLicensePlate := false }, none)
      else if n = "Vehicle" then
        ({ s with inVehicle := false },
          if s.licensePlate ≠ "" then some s.licensePlate else none)
      else (s, none)
  | .other => (s, none)

/-- Run the scanner over a list of events, returning the final state and
the emitted plates in order. -/
def scanEvents : ScanState → List XmlEvent → ScanState × List String
  | s, [] => (s, [])
  | s, ev :: evs =>
      match scanStep s ev with
      | (s', some p) =>
          let r := scanEvents s' evs
          (r.1, p :: r.2)
      | (s', none) => scanEvents s' evs

/-- The plates emitted when one archive entry's event stream is scanned
from the freshly initialised state. -/
def scanEntryEvents (evs : List XmlEvent) : List String :=
  (scanEvents initScan evs).2

/-- The event stream of one `LicensePlate` field: absent, or a field
element with the given text. -/
def fieldEvents : Option String → List XmlEvent
  | none => []
  | some t => [.start "LicensePlate", .text t, .endTag "LicensePlate"]

/-- The event stream of one well-formed `Vehicle` record element whose
field part is as given. -/
def vehicleEvents (f : Option String) : List XmlEvent :=
  .start "Vehicle" :: (fieldEvents f ++ [.endTag "Vehicle"])

/-- The event stream of a well-formed document: a sequence of `Vehicle`
record elements. -/
def docEvents : List (Option String) → List XmlEvent
  | [] => []
  | f :: fs => vehicleEvents f ++ docEvents fs

/-- The in-memory store: the `HashMap<String, LicensePlate>` of the
source, as a key-unique association list. -/
def Db := List (String × LicensePlate)

/-- `HashMap::insert`: overwrite the value when the key is present,
otherwise add a new binding. -/
def dbInsert : List (String × LicensePlate) → String → LicensePlate →
    List (String × LicensePlate)
  | [], k, v => [(k, v)]
  | a :: tl, k, v => if a.1 = k then (k, v) :: tl else a :: dbInsert tl k v

/-- `HashMap::get`-style lookup. -/
def dbLookup : List (String × LicensePlate) → String → Option LicensePlate
  | [], _ => none
  | a :: tl, k => if a.1 = k then some a.2 else dbLookup tl k

/-- `HashMap::contains_key`: whether a key is present. -/
def dbHasKey : List (String × LicensePlate) → String → Bool
  | [], _ => false
  | a :: tl, k => if a.1 = k then true else dbHasKey tl k

/-- How an entry's event stream terminates: normal end of input, an XML
parse error at a byte position, or a mid-entry decode (decompression
I/O) error at a byte position.  Both error endings reach the `Err` arm
of `process_zip_file`'s event loop. -/
inductive EntryEnd where
  | eof
  | parseError (pos : Nat)
  | decodeError (pos : Nat)
deriving DecidableEq, Repr

/-- One archive entry: name, directory flag, the XML events its
decompressed content yields, and how the stream terminates. -/
structure XmlEntry where
  name : String
  isDir : Bool
  events : List XmlEvent
  ending : EntryEnd
deriving DecidableEq, Repr

/-- Orchestrator state threaded through `process_zip_file`: the store,
the `processed_count`, a logical clock supplying insertion timestamps,
and the byte positions of the warnings printed so far. -/
structure OrchState where
  db : List (String × LicensePlate)
  processedCount : Nat
  clock : Nat
  warnings : List Nat
deriving DecidableEq, Repr

/-- The orchestrator state at the top of `process_zip_file`: empty store,
zero processed count, no warnings. -/
def initOrch : OrchState := ⟨[], 0, 0, []⟩

/-- Insert a list of emitted plates into the store in order, one
`db.insert` and one `processed_count += 1` per plate, each insertion
stamped with the current clock. -/
def insertPlates (st : OrchState) : List String → OrchState
  | [] => st
  | p :: ps =>
      insertPlates
        { st with
          db := dbInsert st.db p ⟨p, st.clock⟩
          processedCount := st.processedCount + 1
          clock := st.clock + 1 }
        ps

/-- The plates one entry contributes: none for a directory, otherwise
the scan of its events from the freshly initialised scanner state. -/
def entryEmits (e : XmlEntry) : List String :=
  if e.isDir then [] else scanEntryEvents e.events

/-- Process one archive entry: skip directories; otherwise scan the
events from the fresh state, insert every emitted plate, and if the
stream ended in a parse or decode error, record a warning carrying the
byte position (the `Err` arm prints the warning and `break`s out of the
entry's loop only). -/
def processEntry (st : OrchState) (e : XmlEntry) : OrchState :=
  if e.isDir then st
  else
    let st' := insertPlates st (scanEntryEvents e.events)
    match e.ending with
    | .eof => st'
    | .parseError pos => { st' with warnings := st'.warnings ++ [pos] }
    | .decodeError pos => { st' with warnings := st'.warnings ++ [pos] }

/-- The entry loop `for i in 0..archive.len()` of `process_zip_file`. -/
def processEntries (st : OrchState) : List XmlEntry → OrchState
  | [] => st
  | e :: es => processEntries (processEntry st e) es

/-- `process_zip_file` on a fresh store. -/
def processZipFile (entries : List XmlEntry) : OrchState :=
  processEntries initOrch entries

/-- State of `ProgressReader`: total, bytes consumed, last printed
integer percentage. -/
structure ProgressState where
  total : Nat
  current : Nat
  lastPrint : Nat
deriving DecidableEq, Repr

/-- `ProgressReader::new(reader, total)`: counters start at zero. -/
def progressInit (total : Nat) : ProgressState := ⟨total, 0, 0⟩

/-- One successful `read` of `n` bytes through the progress reader:
advance the counter; when the total is positive and the integer
percentage now exceeds the last printed one, emit it and remember it. -/
def progressRead (s : ProgressState) (n : Nat) : ProgressState × Option Nat :=
  let cur := s.current + n
  if s.total > 0 then
    let percentDone := cur * 100 / s.total
    if percentDone > s.lastPrint then
      ({ s with current := cur, lastPrint := percentDone }, some percentDone)
    else ({ s with current := cur }, none)
  else ({ s with current := cur }, none)

/-- A sequence of successful reads through the progress reader,
collecting the emitted percentages in order. -/
def progressRun (s : ProgressState) : List Nat → ProgressState × List Nat
  | [] => (s, [])
  | n :: ns =>
      match progressRead s n with
      | (s', some p) =>
          let r := progressRun s' ns
          (r.1, p :: r.2)
      | (s', none) => progressRun s' ns

/-- `display_results`, sorting phase: collect the keys and sort them
ascending (`plates.sort()`). -/
def sortedPlates (db : List (String × LicensePlate)) : List String :=
  List.insertionSort (· ≤ ·) (db.map Prod.fst)

/-- `display_results`, printing phase: the identifiers actually listed —
the loop breaks once index 9 has been printed, so the first 10 sorted
keys. -/
def displayResults (db : List (String × LicensePlate)) : List String :=
  (sortedPlates db).take 10

/-- Errors `main` can return, by source. -/
inductive RunError where
  | sourceNotFound (path : String)
  | archiveFormat (msg : String)
  | transport (msg : String)
deriving DecidableEq, Repr

/-- `main`: with a positional argument, the local file must exist or the
run fails with a file-not-found error carrying the path before any
processing; otherwise the archive is opened (`ZipArchive::new`, which
may fail with a format error) and processed.  With no argument the
remote transfer collaborator (a parameter here) supplies the entries.
The returned pair is the error, if any, and the final orchestrator
state (the store is created empty before the argument check, so an
early error leaves it empty). -/
def runMain (fsExists : String → Bool)
    (openArchive : String → Except String (List XmlEntry))
    (remote : Except String (List XmlEntry)) :
    Option String → Option RunError × OrchState
  | some filename =>
      if fsExists filename then
        match openArchive filename with
        | .error msg => (some (.archiveFormat msg), initOrch)
        | .ok entries => (none, processZipFile entries)
      else (some (.sourceNotFound filename), initOrch)
  | none =>
      match remote with
      | .error msg => (some (.transport msg), initOrch)
      | .ok entries => (none, processZipFile entries)

/-! ### Scanner lemmas -/

lemma scanEvents_append (l1 l2 : List XmlEvent) (s : ScanState) :
    scanEvents s (l1 ++ l2) =
      ((scanEvents (scanEvents s l1).1 l2).1,
        (scanEvents s l1).2 ++ (scanEvents (scanEvents s l1).1 l2).2) := by
  induction l1 generalizing s with
  | nil => simp [scanEvents]
  | cons ev evs ih =>
      simp only [List.cons_append, scanEvents]
      rcases h : scanStep s ev with ⟨s', em⟩
      cases em with
      | none => simpa using ih s'
      | some p => simp [ih s']

lemma scanEvents_cons_none {s s' : ScanState} {ev : XmlEvent} (evs : List XmlEvent)
    (h : scanStep s ev = (s', none)) : scanEvents s (ev :: evs) = scanEvents s' evs := by
  simp [scanEvents, h]

lemma scanEvents_cons_some {s s' : ScanState} {ev : XmlEvent} {p : String}
    (evs : List XmlEvent) (h : scanStep s ev = (s', some p)) :
    scanEvents s (ev :: evs) = ((scanEvents s' evs).1, p :: (scanEvents s' evs).2) := by
  simp [scanEvents, h]

lemma scanEvents_vehicle_none (x : String) :
    scanEvents ⟨false, x, false⟩ (vehicleEvents none) = (⟨false, "", false⟩, []) := rfl

lemma scanEvents_vehicle_some (t x : String) :
    scanEvents ⟨false, x, false⟩ (vehicleEvents (some t)) =
      (⟨false, t, false⟩, if t = "" then [] else [t]) := by
  by_cases ht : t = ""
  · subst ht; rfl
  · have h3 : scanStep ⟨true, "", true⟩ (.text t) = (⟨true, t, true⟩, none) := rfl
    have h5 : scanStep ⟨true, t, false⟩ (.endTag "Vehicle") = (⟨false, t, false⟩, some t) := by
      simp [scanStep, ht]
    show scanEvents ⟨false, x, false⟩
        [.start "Vehicle", .start "LicensePlate", .text t,
          .endTag "LicensePlate", .endTag "Vehicle"] = _
    rw [scanEvents_cons_none _ rfl, scanEvents_cons_none _ rfl, scanEvents_cons_none _ h3,
      scanEvents_cons_none _ rfl, scanEvents_cons_some _ h5]
    simp [scanEvents, ht]

lemma scanEvents_doc (vs : List (Option String)) (x : String) :
    (scanEvents ⟨false, x, false⟩ (docEvents vs)).2 =
      vs.filterMap (fun f => f.bind (fun t => if t = "" then none else some t)) := by
  induction vs generalizing x with
  | nil => rfl
  | cons f fs ih =>
      cases f with
      | none =>
          rw [docEvents, scanEvents_append, scanEvents_vehicle_none]
          simpa using ih ""
      | some t =>
          rw [docEvents, scanEvents_append, scanEvents_vehicle_some]
          by_cases ht : t = ""
          · subst ht
            simpa using ih ""
          · simp [ht, ih t]

lemma scanStep_start_snd (s : ScanState) (n : String) :
    (scanStep s (.start n)).2 = none := by
  simp only [scanStep]
  split
  · rfl
  · split <;> rfl

lemma scanStep_text_snd (s : ScanState) (t : String) :
    (scanStep s (.text t)).2 = none := by
  simp only [scanStep]
  split <;> rfl

lemma scanStep_emit_ne (s : ScanState) (ev : XmlEvent) (p : String)
    (h : (scanStep s ev).2 = some p) : p ≠ "" := by
  cases ev with
  | start n => rw [scanStep_start_snd] at h; simp at h
  | text t => rw [scanStep_text_snd] at h; simp at h
  | other => simp [scanStep] at h
  | endTag n =>
      simp only [scanStep] at h
      split at h
      · simp at h
      · split at h
        · split at h
          · rename_i hne
            simp only [Option.some.injEq] at h
            subst h; exact hne
          · simp at h
        · simp at h

lemma scanStep_emit_endVehicle (s : ScanState) (ev : XmlEvent)
    (h : ((scanStep s ev).2).isSome = true) : ev = .endTag "Vehicle" := by
  cases ev with
  | start n => rw [scanStep_start_snd] at h; simp at h
  | text t => rw [scanStep_text_snd] at h; simp at h
  | other => simp [scanStep] at h
  | endTag n =>
      simp only [scanStep] at h
      split at h
      · simp at h
      · split at h
        · rename_i hne
          exact congrArg XmlEvent.endTag hne
        · simp at h

lemma scanEvents_mem_ne (evs : List XmlEvent) (s : ScanState) (p : String)
    (h : p ∈ (scanEvents s evs).2) : p ≠ "" := by
  induction evs generalizing s with
  | nil => simp [scanEvents] at h
  | cons ev evs ih =>
      simp only [scanEvents] at h
      rcases hs : scanStep s ev with ⟨s', em⟩
      cases em with
      | none => rw [hs] at h; exact ih s' h
      | some q =>
          rw [hs] at h
          simp only [List.mem_cons] at h
          cases h with
          | inl hq => subst hq; exact scanStep_emit_ne s ev p (by rw [hs])
          | inr hmem => exact ih s' hmem

/-! ### Claim theorems: the document scanner -/

/-- C2 counterexample: the claim says a "LicensePlate" start-tag sets
`inLicensePlate` only when `inVehicle` already holds.  In the code the
assignment is unconditional: scanning the single start-tag from the
initial state (where `inVehicle = false`) leaves `inLicensePlate = true`. -/
theorem C2_counterexample :
    initScan.inVehicle = false ∧
    ((scanEvents initScan [.start "LicensePlate"]).1).inLicensePlate = true := by
  decide

/-- C2 amended: a "LicensePlate" start-tag sets `inLicensePlate := true`
unconditionally, even outside a record element; nevertheless text is
captured into the pending plate only when `inVehicle` and
`inLicensePlate` both hold, so a text event arriving while no record
element is open never changes the pending field text. -/
theorem C2_field_flag_unconditional :
    (∀ s : ScanState, ((scanStep s (.start "LicensePlate")).1).inLicensePlate = true)
    ∧ (∀ (s : ScanState) (t : String), s.inVehicle = false →
        ((scanStep s (.text t)).1).licensePlate = s.licensePlate) := by
  constructor
  · intro s
    simp [scanStep]
  · intro s t h
    simp [scanStep, h]

/-- C2 witness: the amended statement at a concrete state with
`inVehicle = false` and a concrete text event. -/
theorem C2_field_flag_unconditional_witness :
    ((scanStep ⟨false, "KEEP", false⟩ (.start "LicensePlate")).1).inLicensePlate = true
    ∧ ((scanStep ⟨false, "KEEP", true⟩ (.text "NEW")).1).licensePlate = "KEEP" :=
  ⟨C2_field_flag_unconditional.1 ⟨false, "KEEP", false⟩,
   C2_field_flag_unconditional.2 ⟨false, "KEEP", true⟩ "NEW" rfl⟩

/-- C3: scanning a well-formed document (a sequence of `Vehicle` record
elements, each with an absent field or a `LicensePlate` field with given
text) emits exactly one record per vehicle with non-empty field text,
carrying that text, and none for empty or absent fields; over arbitrary
event streams every emitted plate is non-empty; and a scanner step can
emit only on an `endTag "Vehicle"` event (the record is emitted when the
closing boundary tag is seen). -/
theorem C3_record_emission :
    (∀ vehicles : List (Option String),
        scanEntryEvents (docEvents vehicles) =
          vehicles.filterMap (fun f => f.bind (fun t => if t = "" then none else some t)))
    ∧ (∀ (evs : List XmlEvent) (p : String), p ∈ scanEntryEvents evs → p ≠ "")
    ∧ (∀ (s : ScanState) (ev : XmlEvent),
        ((scanStep s ev).2).isSome = true → ev = .endTag "Vehicle") := by
  refine ⟨fun vehicles => scanEvents_doc vehicles "", ?_, scanStep_emit_endVehicle⟩
  intro evs p h
  exact scanEvents_mem_ne evs initScan p h

/-- C3 witness: a concrete document with a non-empty, an empty and an
absent field, a concrete emitted plate, and a concrete emitting step. -/
theorem C3_record_emission_witness :
    scanEntryEvents (docEvents [some "AB12345", some "", none, some "CD67890"]) =
      ["AB12345", "CD67890"]
    ∧ ("AB12345" : String) ≠ ""
    ∧ XmlEvent.endTag "Vehicle" = XmlEvent.endTag "Vehicle" :=
  ⟨(C3_record_emission.1 [some "AB12345", some "", none, some "CD67890"]).trans (by decide),
   C3_record_emission.2.1 (docEvents [some "AB12345"]) "AB12345" (by decide),
   C3_record_emission.2.2 ⟨true, "AB12345", false⟩ (.endTag "Vehicle") (by decide)⟩

/-! ### Store lemmas -/

lemma filter_key_nil (tl : List (String × LicensePlate)) (k : String)
    (hnone : ∀ p ∈ tl, p.1 ≠ k) :
    tl.filter (fun p => decide (p.1 = k)) = [] := by
  induction tl with
  | nil => rfl
  | cons a tl ih =>
      have ha := hnone a (List.mem_cons_self a tl)
      have htl := fun p hp => hnone p (List.mem_cons_of_mem a hp)
      simp [ha, ih htl]

lemma dbInsert_filter (db : List (String × LicensePlate)) (k : String) (v : LicensePlate)
    (hnd : (db.map Prod.fst).Nodup) :
    (dbInsert db k v).filter (fun p => decide (p.1 = k)) = [(k, v)] := by
  induction db with
  | nil => simp [dbInsert]
  | cons a tl ih =>
      simp only [List.map_cons, List.nodup_cons] at hnd
      by_cases ha : a.1 = k
      · have hknotin : ∀ p ∈ tl, p.1 ≠ k := by
          intro p hp h
          exact hnd.1 (by rw [ha, ← h]; exact List.mem_map_of_mem Prod.fst hp)
        simp [dbInsert, ha, filter_key_nil tl k hknotin]
      · simp [dbInsert, ha, ih hnd.2]

lemma dbLookup_dbInsert_self (db : List (String × LicensePlate)) (k : String)
    (v : LicensePlate) : dbLookup (dbInsert db k v) k = some v := by
  induction db with
  | nil => simp [dbInsert, dbLookup]
  | cons a tl ih =>
      by_cases ha : a.1 = k
      · simp [dbInsert, dbLookup, ha]
      · simp [dbInsert, dbLookup, ha, ih]

lemma dbLookup_dbInsert_ne (db : List (String × LicensePlate)) (k k' : String)
    (v : LicensePlate) (hne : k' ≠ k) :
    dbLookup (dbInsert db k v) k' = dbLookup db k' := by
  have hkk' : ¬(k = k') := fun h => hne h.symm
  induction db with
  | nil => simp [dbInsert, dbLookup, hkk']
  | cons a tl ih =>
      by_cases ha : a.1 = k
      · simp [dbInsert, dbLookup, ha, hkk']
      · by_cases ha' : a.1 = k'
        · simp [dbInsert, dbLookup, ha, ha', hne]
        · simp [dbInsert, dbLookup, ha, ha', ih]

lemma dbHasKey_dbInsert_self (db : List (String × LicensePlate)) (k : String)
    (v : LicensePlate) : dbHasKey (dbInsert db k v) k = true := by
  induction db with
  | nil => simp [dbInsert, dbHasKey]
  | cons a tl ih =>
      by_cases ha : a.1 = k
      · simp [dbInsert, dbHasKey, ha]
      · simp [dbInsert, dbHasKey, ha, ih]

lemma dbHasKey_dbInsert_mono (db : List (String × LicensePlate)) (k k' : String)
    (v : LicensePlate) (h : dbHasKey db k = true) :
    dbHasKey (dbInsert db k' v) k = true := by
  induction db with
  | nil => simp [dbHasKey] at h
  | cons a tl ih =>
      by_cases ha : a.1 = k'
      · by_cases hak : a.1 = k
        · have hk'k : k' = k := ha.symm.trans hak
          simp [dbInsert, dbHasKey, ha, hk'k]
        · rw [dbHasKey, if_neg hak] at h
          simp [dbInsert, dbHasKey, ha, h]
      · by_cases hak : a.1 = k
        · have hkk' : ¬(k = k') := by rw [← hak]; exact ha
          simp [dbInsert, dbHasKey, hak, hkk']
        · rw [dbHasKey, if_neg hak] at h
          simp [dbInsert, dbHasKey, ha, hak, ih h]

lemma dbInsert_map_fst (db : List (String × LicensePlate)) (k : String) (v : LicensePlate) :
    (dbInsert db k v).map Prod.fst =
      if dbHasKey db k = true then db.map Prod.fst else db.map Prod.fst ++ [k] := by
  induction db with
  | nil => simp [dbInsert, dbHasKey]
  | cons a tl ih =>
      by_cases ha : a.1 = k
      · simp [dbInsert, dbHasKey, ha]
      · by_cases hk : dbHasKey tl k = true
        · simp [dbInsert, dbHasKey, ha, hk, ih]
        · simp [dbInsert, dbHasKey, ha, hk, ih]

lemma dbHasKey_iff_mem (db : List (String × LicensePlate)) (k : String) :
    dbHasKey db k = true ↔ k ∈ db.map Prod.fst := by
  induction db with
  | nil => simp [dbHasKey]
  | cons a tl ih =>
      by_cases ha : a.1 = k
      · simp [dbHasKey, ha]
      · have hka : ¬(k = a.1) := fun h => ha h.symm
        simp [dbHasKey, ha, ih, hka]

lemma dbInsert_nodup (db : List (String × LicensePlate)) (k : String) (v : LicensePlate)
    (h : (db.map Prod.fst).Nodup) : ((dbInsert db k v).map Prod.fst).Nodup := by
  rw [dbInsert_map_fst]
  by_cases hk : dbHasKey db k = true
  · rwa [if_pos hk]
  · rw [if_neg hk]
    have hnotin : k ∉ db.map Prod.fst := fun hmem => hk ((dbHasKey_iff_mem db k).mpr hmem)
    simp [List.nodup_append, h, hnotin]

/-! ### Orchestrator lemmas -/

lemma insertPlates_warnings (ps : List String) (st : OrchState) :
    (insertPlates st ps).warnings = st.warnings := by
  induction ps generalizing st with
  | nil => rfl
  | cons p ps ih => rw [insertPlates]; exact ih _

lemma insertPlates_count (ps : List String) (st : OrchState) :
    (insertPlates st ps).processedCount = st.processedCount + ps.length := by
  induction ps generalizing st with
  | nil => rfl
  | cons p ps ih =>
      rw [insertPlates, ih]
      simp
      omega

lemma insertPlates_hasKey_mono (ps : List String) (st : OrchState) (k : String)
    (h : dbHasKey st.db k = true) : dbHasKey (insertPlates st ps).db k = true := by
  induction ps generalizing st with
  | nil => exact h
  | cons p ps ih =>
      rw [insertPlates]
      exact ih _ (dbHasKey_dbInsert_mono st.db k p ⟨p, st.clock⟩ h)

lemma insertPlates_hasKey_of_mem (ps : List String) (st : OrchState) (p : String)
    (h : p ∈ ps) : dbHasKey (insertPlates st ps).db p = true := by
  induction ps generalizing st with
  | nil => simp at h
  | cons q ps ih =>
      rw [insertPlates]
      rcases List.mem_cons.mp h with hh | hh
      · subst hh
        exact insertPlates_hasKey_mono ps _ p (dbHasKey_dbInsert_self st.db p ⟨p, st.clock⟩)
      · exact ih _ hh

lemma insertPlates_nodup (ps : List String) (st : OrchState)
    (h : (st.db.map Prod.fst).Nodup) : ((insertPlates st ps).db.map Prod.fst).Nodup := by
  induction ps generalizing st with
  | nil => exact h
  | cons p ps ih =>
      rw [insertPlates]
      exact ih _ (dbInsert_nodup st.db p ⟨p, st.clock⟩ h)

lemma processEntry_db (st : OrchState) (e : XmlEntry) :
    (processEntry st e).db =
      if e.isDir then st.db else (insertPlates st (scanEntryEvents e.events)).db := by
  unfold processEntry
  by_cases hd : e.isDir <;> cases e.ending <;> simp [hd]

lemma processEntry_count (st : OrchState) (e : XmlEntry) :
    (processEntry st e).processedCount = st.processedCount + (entryEmits e).length := by
  unfold processEntry entryEmits
  by_cases hd : e.isDir <;> cases e.ending <;> simp [hd, scanEntryEvents, insertPlates_count]

lemma processEntry_warnings_mono (st : OrchState) (e : XmlEntry) (w : Nat)
    (h : w ∈ st.warnings) : w ∈ (processEntry st e).warnings := by
  unfold processEntry
  by_cases hd : e.isDir <;> cases e.ending <;>
    simp [hd, insertPlates_warnings, List.mem_append, h]

lemma processEntry_hasKey_mono (st : OrchState) (e : XmlEntry) (k : String)
    (h : dbHasKey st.db k = true) : dbHasKey (processEntry st e).db k = true := by
  rw [processEntry_db]
  by_cases hd : e.isDir
  · simpa [hd] using h
  · simpa [hd] using insertPlates_hasKey_mono (scanEntryEvents e.events) st k h

lemma processEntry_hasKey_of_mem (st : OrchState) (e : XmlEntry) (p : String)
    (h : p ∈ entryEmits e) : dbHasKey (processEntry st e).db p = true := by
  rw [processEntry_db]
  unfold entryEmits at h
  by_cases hd : e.isDir
  · simp [hd] at h
  · simp only [hd, if_false] at h ⊢
    exact insertPlates_hasKey_of_mem (scanEntryEvents e.events) st p h

lemma processEntry_nodup (st : OrchState) (e : XmlEntry)
    (h : (st.db.map Prod.fst).Nodup) : ((processEntry st e).db.map Prod.fst).Nodup := by
  rw [processEntry_db]
  by_cases hd : e.isDir
  · simpa [hd] using h
  · simpa [hd] using insertPlates_nodup (scanEntryEvents e.events) st h

lemma processEntries_append (l1 l2 : List XmlEntry) (st : OrchState) :
    processEntries st (l1 ++ l2) = processEntries (processEntries st l1) l2 := by
  induction l1 generalizing st with
  | nil => rfl
  | cons e es ih => rw [List.cons_append, processEntries, processEntries]; exact ih _

lemma processEntries_hasKey_mono (es : List XmlEntry) (st : OrchState) (k : String)
    (h : dbHasKey st.db k = true) : dbHasKey (processEntries st es).db k = true := by
  induction es generalizing st with
  | nil => exact h
  | cons e es ih =>
      rw [processEntries]
      exact ih _ (processEntry_hasKey_mono st e k h)

lemma processEntries_warnings_mono (es : List XmlEntry) (st : OrchState) (w : Nat)
    (h : w ∈ st.warnings) : w ∈ (processEntries st es).warnings := by
  induction es generalizing st with
  | nil => exact h
  | cons e es ih =>
      rw [processEntries]
      exact ih _ (processEntry_warnings_mono st e w h)

lemma processEntries_count (es : List XmlEntry) (st : OrchState) :
    (processEntries st es).processedCount =
      st.processedCount + ((es.map entryEmits).flatten).length := by
  induction es generalizing st with
  | nil => simp [processEntries]
  | cons e es ih =>
      rw [processEntries, ih, processEntry_count]
      simp [List.length_append]
      omega

lemma processEntries_nodup (es : List XmlEntry) (st : OrchState)
    (h : (st.db.map Prod.fst).Nodup) : ((processEntries st es).db.map Prod.fst).Nodup := by
  induction es generalizing st with
  | nil => exact h
  | cons e es ih =>
      rw [processEntries]
      exact ih _ (processEntry_nodup st e h)

/-! ### Claim theorem: the record store -/

/-- C6: on a key-unique store that already contains `k`, inserting a new
record under `k` leaves exactly one entry under `k`, whose stored value
(timestamp included) is the newly inserted one; every other key's
binding is unchanged.  Every store the pipeline ever produces is
key-unique, so the hypotheses hold along every run. -/
theorem C6_last_write_wins (db : List (String × LicensePlate)) (k : String)
    (v : LicensePlate) (hnd : (db.map Prod.fst).Nodup) (_hk : dbHasKey db k = true) :
    (dbInsert db k v).filter (fun p => decide (p.1 = k)) = [(k, v)]
    ∧ dbLookup (dbInsert db k v) k = some v
    ∧ (∀ k' : String, k' ≠ k → dbLookup (dbInsert db k v) k' = dbLookup db k')
    ∧ (∀ entries : List XmlEntry, ((processZipFile entries).db.map Prod.fst).Nodup) := by
  refine ⟨dbInsert_filter db k v hnd, dbLookup_dbInsert_self db k v,
    fun k' hne => dbLookup_dbInsert_ne db k k' v hne, fun entries => ?_⟩
  exact processEntries_nodup entries initOrch (by simp [initOrch])

/-- C6 witness: re-inserting key "A" into the concrete one-entry store
`[("A", ⟨"A", 0⟩)]` with a later timestamp. -/
theorem C6_last_write_wins_witness :
    (dbInsert [("A", ⟨"A", 0⟩)] "A" ⟨"A", 5⟩).filter (fun p => decide (p.1 = "A")) =
      [("A", ⟨"A", 5⟩)]
    ∧ dbLookup (dbInsert [("A", ⟨"A", 0⟩)] "A" ⟨"A", 5⟩) "A" = some ⟨"A", 5⟩
    ∧ dbLookup (dbInsert [("A", ⟨"A", 0⟩)] "A" ⟨"A", 5⟩) "B" = dbLookup [("A", ⟨"A", 0⟩)] "B" :=
  have h := C6_last_write_wins [("A", ⟨"A", 0⟩)] "A" ⟨"A", 5⟩ (by decide) (by decide)
  ⟨h.1, h.2.1, h.2.2.1 "B" (by decide)⟩

/-! ### Claim theorems: the entry loop -/

/-- C1: when decoding one entry fails mid-entry (a decompression or I/O
error surfacing from the entry's reader, `EntryEnd.decodeError`), the
run does not abort: it records a warning carrying the byte position,
processes the remaining entries exactly as the entry loop prescribes,
and every key already present in the store after the earlier entries is
still present at the end of the run. -/
theorem C1_decode_error_skips_entry (pre post : List XmlEntry) (nm : String)
    (evs : List XmlEvent) (pos : Nat) (st0 : OrchState) :
    processEntries st0 (pre ++ ⟨nm, false, evs, .decodeError pos⟩ :: post) =
      processEntries (processEntry (processEntries st0 pre)
        ⟨nm, false, evs, .decodeError pos⟩) post
    ∧ pos ∈ (processEntries st0 (pre ++ ⟨nm, false, evs, .decodeError pos⟩ :: post)).warnings
    ∧ (∀ k : String, dbHasKey (processEntries st0 pre).db k = true →
        dbHasKey (processEntries st0 (pre ++ ⟨nm, false, evs, .decodeError pos⟩ :: post)).db k
          = true) := by
  refine ⟨by rw [processEntries_append]; rfl, ?_, ?_⟩
  · rw [processEntries_append, processEntries]
    refine processEntries_warnings_mono post _ pos ?_
    simp [processEntry, insertPlates_warnings]
  · intro k hk
    rw [processEntries_append, processEntries]
    exact processEntries_hasKey_mono post _ k
      (processEntry_hasKey_mono _ _ k hk)

/-- C1 witness: a concrete run with one good entry, one entry failing to
decode at byte position 7, and one further entry; key "A" from the first
entry survives to the end of the run. -/
theorem C1_decode_error_skips_entry_witness :
    dbHasKey (processEntries initOrch
      ([⟨"a.xml", false, docEvents [some "A"], .eof⟩] ++
        ⟨"bad.xml", false, docEvents [some "B"], .decodeError 7⟩ ::
          [⟨"c.xml", false, docEvents [some "C"], .eof⟩])).db "A" = true :=
  (C1_decode_error_skips_entry [⟨"a.xml", false, docEvents [some "A"], .eof⟩]
      [⟨"c.xml", false, docEvents [some "C"], .eof⟩] "bad.xml"
      (docEvents [some "B"]) 7 initOrch).2.2 "A" (by decide)

/-- C5: when an entry's document stream ends in a parse error, the scan
of that entry terminates there, a warning carrying the byte position is
surfaced, every record emitted from that entry before the error is in
the store at the end of the run, and the remaining entries are processed
exactly as the entry loop prescribes. -/
theorem C5_parse_error_retains_records (pre post : List XmlEntry) (nm : String)
    (evs : List XmlEvent) (pos : Nat) (st0 : OrchState) :
    processEntries st0 (pre ++ ⟨nm, false, evs, .parseError pos⟩ :: post) =
      processEntries (processEntry (processEntries st0 pre)
        ⟨nm, false, evs, .parseError pos⟩) post
    ∧ pos ∈ (processEntries st0 (pre ++ ⟨nm, false, evs, .parseError pos⟩ :: post)).warnings
    ∧ (∀ p : String, p ∈ scanEntryEvents evs →
        dbHasKey (processEntries st0 (pre ++ ⟨nm, false, evs, .parseError pos⟩ :: post)).db p
          = true) := by
  refine ⟨by rw [processEntries_append]; rfl, ?_, ?_⟩
  · rw [processEntries_append, processEntries]
    refine processEntries_warnings_mono post _ pos ?_
    simp [processEntry, insertPlates_warnings]
  · intro p hp
    rw [processEntries_append, processEntries]
    refine processEntries_hasKey_mono post _ p ?_
    refine processEntry_hasKey_of_mem _ _ p ?_
    simpa [entryEmits] using hp

/-- C5 witness: an entry parses one record "EF11111" and then hits a
parse error at byte position 42; the record is in the final store. -/
theorem C5_parse_error_retains_records_witness :
    dbHasKey (processEntries initOrch
      ([⟨"a.xml", false, docEvents [some "A"], .eof⟩] ++
        ⟨"b.xml", false, docEvents [some "EF11111"], .parseError 42⟩ ::
          [⟨"c.xml", false, docEvents [some "C"], .eof⟩])).db "EF11111" = true :=
  (C5_parse_error_retains_records [⟨"a.xml", false, docEvents [some "A"], .eof⟩]
      [⟨"c.xml", false, docEvents [some "C"], .eof⟩] "b.xml"
      (docEvents [some "EF11111"]) 42 initOrch).2.2 "EF11111" (by decide)

/-- C7: the scanner state is freshly initialised for every entry
(`entryEmits` scans each entry from `initScan`), so each entry's
contribution to the run is a function of that entry alone: an entry adds
exactly the length of its own emission list to the processed count, the
count contributed by a second entry is the same whatever the first entry
was, and every plate the second entry emits is a key of the store after
the two-entry run, whatever the first entry was — unclosed or malformed
elements of the first entry cannot leak into the second. -/
theorem C7_scan_state_reset :
    (∀ (st : OrchState) (e : XmlEntry),
        (processEntry st e).processedCount = st.processedCount + (entryEmits e).length)
    ∧ (∀ (e1 e1' e2 : XmlEntry) (st0 : OrchState),
        (processEntries st0 [e1, e2]).processedCount
            - (processEntries st0 [e1]).processedCount
          = (processEntries st0 [e1', e2]).processedCount
            - (processEntries st0 [e1']).processedCount)
    ∧ (∀ (e1 e2 : XmlEntry) (st0 : OrchState) (p : String), p ∈ entryEmits e2 →
        dbHasKey (processEntries st0 [e1, e2]).db p = true) := by
  refine ⟨processEntry_count, fun e1 e1' e2 st0 => ?_, fun e1 e2 st0 p hp => ?_⟩
  · simp only [processEntries]
    rw [processEntry_count (processEntry st0 e1) e2,
      processEntry_count (processEntry st0 e1') e2]
    omega
  · show dbHasKey (processEntry (processEntry st0 e1) e2).db p = true
    exact processEntry_hasKey_of_mem _ _ p hp

/-- C7 witness: entry 1 leaves an unclosed `Vehicle` element with a
pending plate; entry 2 still contributes exactly its own record "C". -/
theorem C7_scan_state_reset_witness :
    (processEntry initOrch ⟨"a.xml", false, [.start "Vehicle"], .eof⟩).processedCount
      = initOrch.processedCount
        + (entryEmits ⟨"a.xml", false, [.start "Vehicle"], .eof⟩).length
    ∧ dbHasKey (processEntries initOrch
        [⟨"a.xml", false, [.start "Vehicle", .start "LicensePlate", .text "LEAK"], .eof⟩,
          ⟨"c.xml", false, docEvents [some "C"], .eof⟩]).db "C" = true :=
  ⟨C7_scan_state_reset.1 initOrch ⟨"a.xml", false, [.start "Vehicle"], .eof⟩,
   C7_scan_state_reset.2.2
     ⟨"a.xml", false, [.start "Vehicle", .start "LicensePlate", .text "LEAK"], .eof⟩
     ⟨"c.xml", false, docEvents [some "C"], .eof⟩ initOrch "C" (by decide)⟩

/-- C10: the processed count reported at the end of `process_zip_file`
counts every insertion, duplicates included: it equals the total number
of emitted records over all entries; on a concrete entry containing the
same plate twice the reported count is 2 while the final store (whose
size is what the preview reports) has exactly 1 entry. -/
theorem C10_count_exceeds_distinct :
    (∀ entries : List XmlEntry,
        (processZipFile entries).processedCount = ((entries.map entryEmits).flatten).length)
    ∧ (processZipFile
        [⟨"e.xml", false, docEvents [some "AB12345", some "AB12345"], .eof⟩]).processedCount = 2
    ∧ ((processZipFile
        [⟨"e.xml", false, docEvents [some "AB12345", some "AB12345"], .eof⟩]).db).length = 1
    ∧ ((processZipFile
        [⟨"e.xml", false, docEvents [some "AB12345", some "AB12345"], .eof⟩]).db).length
      < (processZipFile
        [⟨"e.xml", false, docEvents [some "AB12345", some "AB12345"], .eof⟩]).processedCount := by
  refine ⟨fun entries => ?_, by decide, by decide, by decide⟩
  rw [processZipFile, processEntries_count]
  simp [initOrch]

/-! ### Progress reader lemmas -/

lemma progressRead_snd (s : ProgressState) (n : Nat) :
    (progressRead s n).2 =
      if s.total > 0 ∧ (s.current + n) * 100 / s.total > s.lastPrint
      then some ((s.current + n) * 100 / s.total) else none := by
  unfold progressRead
  by_cases h1 : s.total > 0
  · by_cases h2 : (s.current + n) * 100 / s.total > s.lastPrint
    · simp [h1, h2]
    · simp [h1, h2]
  · simp [h1]

lemma progressRead_lastPrint_le (s : ProgressState) (n : Nat) :
    s.lastPrint ≤ (progressRead s n).1.lastPrint := by
  unfold progressRead
  by_cases h1 : s.total > 0
  · by_cases h2 : (s.current + n) * 100 / s.total > s.lastPrint
    · simp only [h1, if_true, h2]
      exact Nat.le_of_lt h2
    · simp [h1, h2]
  · simp [h1]

lemma progressRead_emit (s : ProgressState) (n q : Nat)
    (h : (progressRead s n).2 = some q) :
    (progressRead s n).1.lastPrint = q ∧ s.lastPrint < q := by
  unfold progressRead at h ⊢
  by_cases h1 : s.total > 0
  · by_cases h2 : (s.current + n) * 100 / s.total > s.lastPrint
    · simp only [h1, if_true, h2] at h ⊢
      simp only [Option.some.injEq] at h
      subst h
      exact ⟨rfl, h2⟩
    · simp [h1, h2] at h
  · simp [h1] at h

lemma progressRun_mem_gt (ns : List Nat) :
    ∀ (s : ProgressState) (p : Nat), p ∈ (progressRun s ns).2 → s.lastPrint < p := by
  induction ns with
  | nil => intro s p h; simp [progressRun] at h
  | cons n ns ih =>
      intro s p h
      rw [progressRun] at h
      rcases hr : progressRead s n with ⟨s', em⟩
      rw [hr] at h
      have hle : s.lastPrint ≤ s'.lastPrint := by
        have := progressRead_lastPrint_le s n
        rwa [hr] at this
      cases em with
      | none => exact Nat.lt_of_le_of_lt hle (ih s' p h)
      | some q =>
          simp only [List.mem_cons] at h
          cases h with
          | inl hq =>
              subst hq
              exact (progressRead_emit s n p (by rw [hr])).2
          | inr hmem => exact Nat.lt_of_le_of_lt hle (ih s' p hmem)

lemma progressRun_chain (ns : List Nat) :
    ∀ s : ProgressState, List.Chain' (· < ·) (progressRun s ns).2 := by
  induction ns with
  | nil => intro s; simp [progressRun]
  | cons n ns ih =>
      intro s
      rw [progressRun]
      rcases hr : progressRead s n with ⟨s', em⟩
      cases em with
      | none => exact ih s'
      | some q =>
          rw [List.chain'_cons']
          refine ⟨fun b hb => ?_, ih s'⟩
          have hmem : b ∈ (progressRun s' ns).2 := List.mem_of_mem_head? hb
          have hgt := progressRun_mem_gt ns s' b hmem
          have hq := progressRead_emit s n q (by rw [hr])
          rw [hr] at hq
          have hq1 : s'.lastPrint = q := hq.1
          omega

lemma progressRun_total_zero (ns : List Nat) :
    ∀ s : ProgressState, s.total = 0 → (progressRun s ns).2 = [] := by
  induction ns with
  | nil => intro s _; rfl
  | cons n ns ih =>
      intro s h0
      have hr : progressRead s n = ({ s with current := s.current + n }, none) := by
        unfold progressRead
        simp [h0]
      rw [progressRun, hr]
      exact ih _ h0

/-! ### Claim theorem: the progress reader -/

/-- C4: through the progress reader, a successful read of `n` bytes
emits a percentage exactly when the total is positive and the integer
percentage of the new byte count strictly exceeds the last reported one
(and then emits exactly that percentage); over any sequence of reads the
emitted percentages are strictly increasing and all exceed the starting
marker; nothing is ever emitted when the total is zero; and for a total
of 1000 with four successful reads of 250 bytes each the emissions are
exactly 25, 50, 75, 100. -/
theorem C4_progress_reporting :
    (∀ (s : ProgressState) (n : Nat),
        (progressRead s n).2 =
          if s.total > 0 ∧ (s.current + n) * 100 / s.total > s.lastPrint
          then some ((s.current + n) * 100 / s.total) else none)
    ∧ (∀ (s : ProgressState) (reads : List Nat),
        List.Chain' (· < ·) (progressRun s reads).2)
    ∧ (∀ (s : ProgressState) (reads : List Nat) (p : Nat),
        p ∈ (progressRun s reads).2 → s.lastPrint < p)
    ∧ (∀ (s : ProgressState) (reads : List Nat),
        s.total = 0 → (progressRun s reads).2 = [])
    ∧ (progressRun (progressInit 1000) [250, 250, 250, 250]).2 = [25, 50, 75, 100] :=
  ⟨progressRead_snd, fun s reads => progressRun_chain reads s,
   fun s reads p h => progressRun_mem_gt reads s p h,
   fun s reads h => progressRun_total_zero reads s h, by decide⟩

/-- C4 witness: a concrete emitted percentage exceeds the starting
marker, and a concrete zero-total run emits nothing. -/
theorem C4_progress_reporting_witness :
    (progressInit 1000).lastPrint < 25
    ∧ (progressRun (progressInit 0) [5, 5]).2 = [] :=
  ⟨C4_progress_reporting.2.2.1 (progressInit 1000) [250] 25 (by decide),
   C4_progress_reporting.2.2.2.1 (progressInit 0) [5, 5] rfl⟩

/-! ### Claim theorem: the terminal report -/

/-- C8: the terminal report lists stored identifiers in ascending
lexicographic order, bounded to the first 10; every listed identifier is
a key of the store (the store itself is read, not modified — the model
is a pure function of it); and for the key set B, A, C the output order
is A, B, C. -/
theorem C8_sorted_preview :
    (∀ db : List (String × LicensePlate), List.Sorted (· ≤ ·) (displayResults db))
    ∧ (∀ db : List (String × LicensePlate), (displayResults db).length ≤ 10)
    ∧ (∀ (db : List (String × LicensePlate)) (p : String),
        p ∈ displayResults db → p ∈ db.map Prod.fst)
    ∧ displayResults [("B", ⟨"B", 0⟩), ("A", ⟨"A", 1⟩), ("C", ⟨"C", 2⟩)] = ["A", "B", "C"] := by
  refine ⟨fun db => ?_, fun db => List.length_take_le 10 _, fun db p hp => ?_, ?_⟩
  · exact List.Pairwise.sublist (List.take_sublist 10 _)
      (List.sorted_insertionSort (· ≤ ·) (db.map Prod.fst))
  · exact (List.perm_insertionSort (· ≤ ·) (db.map Prod.fst)).subset
      (List.mem_of_mem_take hp)
  · simp only [displayResults, sortedPlates, List.map_cons, List.map_nil,
      List.insertionSort, List.orderedInsert]
    norm_num [String.le_iff_toList_le]
    decide

/-- C8 witness: a singleton store, where the sorted preview needs no
comparisons and evaluates by `decide`. -/
theorem C8_sorted_preview_witness :
    ("A" : String) ∈ ([("A", (⟨"A", 0⟩ : LicensePlate))].map Prod.fst) :=
  C8_sorted_preview.2.2.1 [("A", ⟨"A", 0⟩)] "A" (by decide)

/-! ### Claim theorem: source acquisition in `main` -/

/-- C9: with a positional argument naming a path that does not exist,
the run fails with the source-not-found error carrying that path before
any archive processing, leaving the store empty; when the path exists,
no source-not-found error can be produced (the remaining failure modes
are distinct error constructors). -/
theorem C9_source_not_found (fs : String → Bool)
    (oa : String → Except String (List XmlEntry)) (rm : Except String (List XmlEntry))
    (path : String) :
    (fs path = false →
        runMain fs oa rm (some path) = (some (.sourceNotFound path), initOrch))
    ∧ (fs path = false → ((runMain fs oa rm (some path)).2).db = [])
    ∧ (fs path = true →
        ∀ q : String, (runMain fs oa rm (some path)).1 ≠ some (.sourceNotFound q)) := by
  refine ⟨fun h => ?_, fun h => ?_, fun h q => ?_⟩
  · simp [runMain, h]
  · simp [runMain, h, initOrch]
  · simp only [runMain, h, if_true]
    cases oa path with
    | error msg => simp
    | ok entries => simp

/-- C9 witness: a filesystem with no files rejects "input.zip" with the
source-not-found error and an empty store; a filesystem containing the
path never yields that error. -/
theorem C9_source_not_found_witness :
    runMain (fun _ => false) (fun _ => Except.error "bad zip") (Except.error "net")
        (some "input.zip")
      = (some (.sourceNotFound "input.zip"), initOrch)
    ∧ (runMain (fun _ => true) (fun _ => Except.error "bad zip") (Except.error "net")
        (some "input.zip")).1 ≠ some (.sourceNotFound "input.zip") :=
  ⟨(C9_source_not_found (fun _ => false) (fun _ => Except.error "bad zip")
      (Except.error "net") "input.zip").1 rfl,
   (C9_source_not_found (fun _ => true) (fun _ => Except.error "bad zip")
      (Except.error "net") "input.zip").2.2 rfl "input.zip"⟩

end Autoplate
